import Mathlib

/-!
Verification of the letter-board interaction core (`src/App.tsx`) of the
lev-learning-letters repository: the sparse grid model, the text-extraction
functions `getConnectedWord` and `getAllText`, the drag-end reconciliation
logic `handleDragEnd`, and the undo / clear handlers, together with the
session-level history and instance-id invariants.
-/

namespace LevLetters

/-- Modelled from the spec: the repository's `constants.ts` (defining
`GRID_COLS`, `GRID_ROWS`, `TOTAL_CELLS`) is not present under `src/`.
The values are taken from the layout description in `App.tsx`
("Effective content aspect ratio: 11 cols / (5 + 3 + gap) rows",
`GRID_ROWS_COUNT = 5`): an 11-column, 5-row grid. -/
def GRID_COLS : Nat := 11

/-- Modelled from the spec: number of grid rows (see `GRID_COLS`). -/
def GRID_ROWS : Nat := 5

/-- Modelled from the spec: total cell count, rows times columns. -/
def TOTAL_CELLS : Nat := GRID_ROWS * GRID_COLS

/-- `GridItem` from `types.ts`: a placed tile, with a unique instance id
and the displayed character (a string in the source). -/
structure GridItem where
  id : String
  char : String
deriving DecidableEq, Repr

/-- `GridState` from `types.ts`: sparse map from cell index to tile;
`none` means the cell is empty (key absent in the source's record). -/
def GridState := Nat → Option GridItem

/-- The empty grid (`{}` in the source). -/
def emptyGrid : GridState := fun _ => none

/-- Writing a tile into a cell (`state[i] = item` on a copied record). -/
def setCell (g : GridState) (i : Nat) (v : GridItem) : GridState :=
  fun j => if j = i then some v else g j

/-- Removing a tile from a cell (`delete state[i]` on a copied record). -/
def delCell (g : GridState) (i : Nat) : GridState :=
  fun j => if j = i then none else g j

/-- The first `while` loop of `getConnectedWord`: walk `start` leftwards
while the previous cell is in the same row and occupied. -/
def scanLeft (state : GridState) (row : Nat) : Nat → Nat
  | 0 => 0
  | s + 1 =>
    if s / GRID_COLS = row ∧ (state s).isSome = true then scanLeft state row s
    else s + 1

/-- Fuel-indexed form of the second `while` loop of `getConnectedWord`:
walk `e` rightwards while the next cell exists, is in the same row, and is
occupied.  The loop condition bounds `e` by `TOTAL_CELLS - 1`, so any fuel
of at least `TOTAL_CELLS` reproduces the source loop exactly. -/
def scanRightFuel (state : GridState) (row : Nat) : Nat → Nat → Nat
  | 0, e => e
  | fuel + 1, e =>
    if e < TOTAL_CELLS - 1 ∧ (e + 1) / GRID_COLS = row ∧ (state (e + 1)).isSome = true then
      scanRightFuel state row fuel (e + 1)
    else e

/-- The second `while` loop of `getConnectedWord`. -/
def scanRight (state : GridState) (row : Nat) (e : Nat) : Nat :=
  scanRightFuel state row TOTAL_CELLS e

/-- The final `for` loop of `getConnectedWord`: concatenate the characters
of `count` consecutive cells starting at `start`, left to right. -/
def collectChars (state : GridState) : Nat → Nat → String
  | _, 0 => ""
  | start, n + 1 =>
    (match state start with
     | some item => item.char
     | none => "") ++ collectChars state (start + 1) n

/-- `getConnectedWord` from `App.tsx`: empty string on an empty cell,
otherwise the concatenation of the maximal same-row contiguous occupied
run around `index`. -/
def getConnectedWord (state : GridState) (index : Nat) : String :=
  match state index with
  | none => ""
  | some _ =>
    let row := index / GRID_COLS
    let start := scanLeft state row index
    let stop := scanRight state row index
    collectChars state start (stop + 1 - start)

/-- One step of the inner column loop of `getAllText`: append the cell's
character when occupied; on an empty cell append a single space when the
accumulated text is nonempty and does not already end with a space. -/
def rowStep (txt : List Char) (cell : Option GridItem) : List Char :=
  match cell with
  | some item => txt ++ item.char.data
  | none =>
    if txt ≠ [] ∧ txt.getLast? ≠ some (' ') then txt ++ [' '] else txt

/-- The cells of row `r`, in column order. -/
def rowCellsOf (state : GridState) (r : Nat) : List (Option GridItem) :=
  (List.range GRID_COLS).map (fun c => state (r * GRID_COLS + c))

/-- The inner column loop of `getAllText` over row `r` (text as a
character list; the source builds a JavaScript string). -/
def rowFold (state : GridState) (r : Nat) : List Char :=
  (rowCellsOf state r).foldl rowStep []

/-- Model of JavaScript `String.prototype.trim`: strip leading and
trailing whitespace. -/
def jsTrim (l : List Char) : List Char :=
  ((l.dropWhile Char.isWhitespace).reverse.dropWhile Char.isWhitespace).reverse

/-- `cleanRow` of `getAllText`: the row text, trimmed. -/
def cleanRow (state : GridState) (r : Nat) : List Char :=
  jsTrim (rowFold state r)

/-- `getAllText` from `App.tsx`: trimmed row texts, empty rows skipped,
joined with ". ". -/
def getAllText (state : GridState) : String :=
  String.mk
    (List.intercalate ['.', ' ']
      (((List.range GRID_ROWS).map (cleanRow state)).filter (fun l => l ≠ [])))

/-- Drag origin (`'keyboard' | 'grid'` in `types.ts`). -/
inductive DragOrigin where
  | keyboard : DragOrigin
  | grid : DragOrigin
deriving DecidableEq, Repr

/-- `DragData` from `types.ts`: the drag payload; `id` and `index` are
optional (present for grid-origin drags). -/
structure DragData where
  origin : DragOrigin
  char : String
  id : Option String
  index : Option Nat
deriving DecidableEq, Repr

/-- The droppable regions of the app: the keyboard area, or grid cell
`i` (droppable id `cell-i` carrying `{ index: i }`). -/
inductive OverTarget where
  | keyboardArea : OverTarget
  | cell : Nat → OverTarget
deriving DecidableEq, Repr

/-- Sound cues (`'grab' | 'drop' | 'rustle'` in `audio.ts`). -/
inductive SoundKind where
  | grab : SoundKind
  | drop : SoundKind
  | rustle : SoundKind
deriving DecidableEq, Repr

/-- Outcome of one `handleDragEnd` call: the next grid, the next history
stack, and the speech call made (at most one per call). -/
structure DragEndResult where
  grid : GridState
  history : List GridState
  spoken : Option String

/-- JavaScript `a || b` on an optional string: `b` when `a` is absent or
falsy (the empty string), `a`'s value otherwise — models
`data.id || fresh` in the move branch. -/
def jsFalsyOr (a : Option String) (b : String) : String :=
  match a with
  | some v => if v = "" then b else v
  | none => b

/-- `handleDragEnd` from `App.tsx`, as a pure function of the captured
grid state, the history stack, the drag payload, and the drop target.
`moveFreshId` and `cloneFreshId` stand for the environment-supplied
identifiers the source synthesizes from `Date.now()` / `Math.random()`
in the move and clone branches. -/
def handleDragEnd (gridState : GridState) (history : List GridState)
    (data : DragData) (over : Option OverTarget)
    (moveFreshId cloneFreshId : String) : DragEndResult :=
  match over with
  | none => ⟨gridState, history, none⟩
  | some OverTarget.keyboardArea =>
    match data.origin with
    | DragOrigin.grid =>
      let newState :=
        match data.index with
        | some i => delCell gridState i
        | none => gridState
      ⟨newState, history ++ [gridState], none⟩
    | DragOrigin.keyboard => ⟨gridState, history, none⟩
  | some (OverTarget.cell targetIndex) =>
    match data.origin, data.index with
    | DragOrigin.grid, some srcIndex =>
      if srcIndex = targetIndex then ⟨gridState, history, none⟩
      else
        let existingItem := gridState targetIndex
        let afterDel := delCell gridState srcIndex
        let afterBackfill :=
          match existingItem with
          | some item => setCell afterDel srcIndex item
          | none => afterDel
        let nextState :=
          setCell afterBackfill targetIndex
            { id := jsFalsyOr data.id moveFreshId, char := data.char }
        let word := getConnectedWord nextState targetIndex
        ⟨nextState, history ++ [gridState],
          some (if 2 ≤ word.length then word else data.char)⟩
    | DragOrigin.grid, none => ⟨gridState, history, none⟩
    | DragOrigin.keyboard, _ =>
      let nextState := setCell gridState targetIndex { id := cloneFreshId, char := data.char }
      let word := getConnectedWord nextState targetIndex
      ⟨nextState, history ++ [gridState],
        some (if 2 ≤ word.length then word else data.char)⟩

/-- Outcome of `handleUndo`: the next grid, next history, and sound cue. -/
structure UndoResult where
  grid : GridState
  hist : List GridState
  sound : Option SoundKind

/-- `handleUndo` from `App.tsx`: no-op on empty history, otherwise pop
the most recent snapshot and install it, with a rustle cue. -/
def handleUndo (g : GridState) (hist : List GridState) : UndoResult :=
  match hist.getLast? with
  | none => ⟨g, hist, none⟩
  | some prev => ⟨prev, hist.dropLast, some SoundKind.rustle⟩

/-- Outcome of `handleClear`: the next grid, the snapshot pushed (if
any), and the sound cue emitted (if any). -/
structure ClearResult where
  grid : GridState
  pushedSnapshot : Option GridState
  sound : Option SoundKind

/-- `Object.keys(gridState).length` of `handleClear`: number of occupied
cells.  The source counts record keys; under the data-model invariant that
every key is an in-range cell index, this is the occupied-cell count over
`[0, TOTAL_CELLS)`. -/
def gridKeyCount (g : GridState) : Nat :=
  ((List.range TOTAL_CELLS).filter (fun i => (g i).isSome)).length

/-- `handleClear` from `App.tsx`: no-op (no push, no sound) when the grid
has no keys; otherwise push the current grid, reset to empty, rustle. -/
def handleClear (g : GridState) : ClearResult :=
  if gridKeyCount g = 0 then ⟨g, none, none⟩
  else ⟨emptyGrid, some g, some SoundKind.rustle⟩

/-- The session state held by `App`: current grid, undo history, and a
counter indexing the environment's fresh-id supply (each drag-end reads
the clock / RNG at most once per synthesized id). -/
structure Session where
  grid : GridState
  hist : List GridState
  ctr : Nat

/-- Session start: empty grid, empty history. -/
def initSession : Session := ⟨emptyGrid, [], 0⟩

/-- User events driving the session: dragging an existing grid tile from
cell `src` to a drop target, dragging a keyboard key (a clone source),
clearing, and undoing. -/
inductive UserEvent where
  | dragGrid : Nat → Option OverTarget → UserEvent
  | dragKeyboard : String → Option OverTarget → UserEvent
  | clearEv : UserEvent
  | undoEv : UserEvent

/-- One session step.  A grid drag's payload is built exactly as
`DraggableItem` builds it (the dragged cell's own char and id, plus its
index); dragging from an empty cell cannot occur and is the identity.  A
keyboard drag's payload carries the key's char and draggable id and no
index.  `supply` is the environment's stream of synthesized ids. -/
def stepSession (supply : Nat → String) (s : Session) : UserEvent → Session
  | UserEvent.dragGrid src over =>
    match s.grid src with
    | none => s
    | some item =>
      let r := handleDragEnd s.grid s.hist
        ⟨DragOrigin.grid, item.char, some item.id, some src⟩ over
        (supply s.ctr) (supply s.ctr)
      ⟨r.grid, r.history, s.ctr + 1⟩
  | UserEvent.dragKeyboard c over =>
    let r := handleDragEnd s.grid s.hist
      ⟨DragOrigin.keyboard, c, some ("keyboard-" ++ c), none⟩ over
      (supply s.ctr) (supply s.ctr)
    ⟨r.grid, r.history, s.ctr + 1⟩
  | UserEvent.clearEv =>
    let r := handleClear s.grid
    match r.pushedSnapshot with
    | some snap => ⟨r.grid, s.hist ++ [snap], s.ctr⟩
    | none => ⟨r.grid, s.hist, s.ctr⟩
  | UserEvent.undoEv =>
    let r := handleUndo s.grid s.hist
    ⟨r.grid, r.hist, s.ctr⟩

/-- Run a trace of user events from a session. -/
def runFrom (supply : Nat → String) : Session → List UserEvent → Session
  | s, [] => s
  | s, e :: es => runFrom supply (stepSession supply s e) es

/-- Run a trace from session start. -/
def runTrace (supply : Nat → String) (tr : List UserEvent) : Session :=
  runFrom supply initSession tr

/-- Every grid state the session passes through along a trace (the
initial state and the state after each event). -/
def gridsAlong (supply : Nat → String) : Session → List UserEvent → List GridState
  | s, [] => [s.grid]
  | s, e :: es => s.grid :: gridsAlong supply (stepSession supply s e) es

/-- The grid states ever reached from session start along a trace. -/
def gridsEver (supply : Nat → String) (tr : List UserEvent) : List GridState :=
  gridsAlong supply initSession tr

/-- Instance ids are pairwise distinct across the occupied cells of a
grid (the spec's uniqueness invariant on `instanceId`). -/
def GoodState (g : GridState) : Prop :=
  ∀ i j ti tj, g i = some ti → g j = some tj → i ≠ j → ti.id ≠ tj.id

/-- Every instance id occurring in `g` was produced by the id supply at
some index below `n`. -/
def IdsFrom (supply : Nat → String) (n : Nat) (g : GridState) : Prop :=
  ∀ i t, g i = some t → ∃ k, k < n ∧ supply k = t.id

/-- Session invariant: the current grid and every history snapshot have
pairwise-distinct ids, all drawn from the supply below the counter. -/
def SessInv (supply : Nat → String) (s : Session) : Prop :=
  (GoodState s.grid ∧ IdsFrom supply s.ctr s.grid) ∧
  ∀ h ∈ s.hist, GoodState h ∧ IdsFrom supply s.ctr h

/-- Continuation of the `getAllText` row fold after a nonempty prefix:
`endsSpace` records whether the text built so far ends with a space. -/
def contFrom (endsSpace : Bool) : List (Option GridItem) → List Char
  | [] => []
  | some item :: rest => item.char.data ++ contFrom false rest
  | none :: rest =>
    if endsSpace then contFrom true rest else ' ' :: contFrom true rest

/-- Continuation of the `getAllText` row fold from empty text. -/
def cont0 : List (Option GridItem) → List Char
  | [] => []
  | some item :: rest => item.char.data ++ contFrom false rest
  | none :: rest => cont0 rest

/-- Maximal occupied runs of a row, as character lists, with an explicit
current-run accumulator (specification-side description of a row). -/
def runsAux (cur : List Char) : List (Option GridItem) → List (List Char)
  | [] => if cur = [] then [] else [cur]
  | some item :: rest => runsAux (cur ++ item.char.data) rest
  | none :: rest => if cur = [] then runsAux [] rest else cur :: runsAux [] rest

/-- Modelled from the spec: the maximal contiguous occupied runs of a
row, in left-to-right order, each as the concatenation of its cells'
characters. -/
def runsOfRow (cells : List (Option GridItem)) : List (List Char) :=
  runsAux [] cells

/-- Runs joined by single spaces. -/
def joinRuns : List (List Char) → List Char
  | [] => []
  | [r] => r
  | r :: r2 :: rs => r ++ ' ' :: joinRuns (r2 :: rs)

/-- Modelled from the spec: a row's text is its occupied runs joined by
single spaces (runs of empties collapsed to one space, no leading or
trailing space). -/
def specRowText (cells : List (Option GridItem)) : List Char :=
  joinRuns (runsOfRow cells)

/-- Modelled from the spec: `allText` as the spec describes it — per-row
run texts, empty rows skipped, rows joined with ". ". -/
def allTextSpec (state : GridState) : String :=
  String.mk
    (List.intercalate ['.', ' ']
      (((List.range GRID_ROWS).map (fun r => specRowText (rowCellsOf state r))).filter
        (fun l => l ≠ [])))

/-- Every tile character of the grid is a single non-whitespace
character (true of every keyboard letter). -/
def SingleNonSpace (state : GridState) : Prop :=
  ∀ i it, state i = some it → ∃ c, it.char.data = [c] ∧ c.isWhitespace = false

/-- A row string with no leading space, no trailing space, and no two
adjacent spaces. -/
def NoBadSpaces (l : List Char) : Prop :=
  l.head? ≠ some (' ') ∧ l.getLast? ≠ some (' ') ∧
  List.Chain' (fun a b => ¬(a = ' ' ∧ b = ' ')) l

/-- A three-letter test grid: "К", "О", "Т" in cells 0, 1, 2. -/
def stKOT : GridState :=
  setCell (setCell (setCell emptyGrid 0 ⟨"i1", "К"⟩) 1 ⟨"i2", "О"⟩) 2 ⟨"i3", "Т"⟩

/-- A two-letter test grid: "К" in cell 0, "О" in cell 1. -/
def stKO : GridState :=
  setCell (setCell emptyGrid 0 ⟨"i1", "К"⟩) 1 ⟨"i2", "О"⟩

/-- A grid containing tiles whose character is a space: "А", " ", " ",
"Б" in cells 0-3. -/
def stSpaced : GridState :=
  setCell (setCell (setCell (setCell emptyGrid 0 ⟨"i1", "А"⟩) 1 ⟨"i2", " "⟩) 2 ⟨"i3", " "⟩)
    3 ⟨"i4", "Б"⟩

/-- A concrete injective id supply with nonempty values. -/
def supplyA (n : Nat) : String :=
  String.mk (List.replicate (n + 1) 'a')

/-- A one-letter test grid: "К" in cell 0. -/
def stK : GridState := setCell emptyGrid 0 ⟨"i1", "К"⟩

/-- The swap of two cells, as an index map. -/
def swapIdx (s t : Nat) (j : Nat) : Nat :=
  if j = t then s else if j = s then t else j

/-- Every occupied cell of the list holds a single non-whitespace
character. -/
def CellsOk (cells : List (Option GridItem)) : Prop :=
  ∀ o ∈ cells, ∀ it, o = some it → ∃ ch, it.char.data = [ch] ∧ ch.isWhitespace = false

/-- All characters of the list are non-whitespace. -/
def WordChars (l : List Char) : Prop := ∀ ch ∈ l, ch.isWhitespace = false

theorem setCell_self (g : GridState) (i : Nat) (v : GridItem) : setCell g i v i = some v := by
  simp [setCell]

theorem setCell_other (g : GridState) (i j : Nat) (v : GridItem) (h : j ≠ i) :
    setCell g i v j = g j := by
  simp [setCell, h]

theorem delCell_self (g : GridState) (i : Nat) : delCell g i i = none := by
  simp [delCell]

theorem delCell_other (g : GridState) (i j : Nat) (h : j ≠ i) : delCell g i j = g j := by
  simp [delCell, h]

/-- The move branch of `handleDragEnd`, unfolded. -/
theorem handleDragEnd_move (state : GridState) (hist : List GridState) (c : String)
    (oid : Option String) (s t : Nat) (mf cf : String) (hne : s ≠ t) :
    handleDragEnd state hist ⟨DragOrigin.grid, c, oid, some s⟩ (some (OverTarget.cell t)) mf cf =
      let afterBackfill :=
        match state t with
        | some item => setCell (delCell state s) s item
        | none => delCell state s
      let nextState := setCell afterBackfill t { id := jsFalsyOr oid mf, char := c }
      let word := getConnectedWord nextState t
      ⟨nextState, hist ++ [state], some (if 2 ≤ word.length then word else c)⟩ := by
  simp only [handleDragEnd, if_neg hne]

/-- The clone branch of `handleDragEnd`, unfolded. -/
theorem handleDragEnd_clone (state : GridState) (hist : List GridState) (c : String)
    (oid : Option String) (oidx : Option Nat) (t : Nat) (mf cf : String) :
    handleDragEnd state hist ⟨DragOrigin.keyboard, c, oid, oidx⟩ (some (OverTarget.cell t)) mf cf =
      let nextState := setCell state t { id := cf, char := c }
      let word := getConnectedWord nextState t
      ⟨nextState, hist ++ [state], some (if 2 ≤ word.length then word else c)⟩ := by
  simp only [handleDragEnd]

/-- C7: dropping a grid tile back onto its own source cell is a strict
no-op — the grid, the history, and the speech output are returned
unchanged. -/
theorem c7_same_cell_noop (state : GridState) (hist : List GridState) (c : String)
    (oid : Option String) (s : Nat) (mf cf : String) :
    handleDragEnd state hist ⟨DragOrigin.grid, c, oid, some s⟩ (some (OverTarget.cell s)) mf cf =
      ⟨state, hist, none⟩ := by
  simp [handleDragEnd]

/-- C8: dropping a grid tile onto the keyboard area removes exactly the
source cell's entry, pushes one snapshot of the pre-mutation grid, and
makes no speech call. -/
theorem c8_delete_drop (state : GridState) (hist : List GridState) (c : String)
    (oid : Option String) (s : Nat) (mf cf : String) :
    (handleDragEnd state hist ⟨DragOrigin.grid, c, oid, some s⟩
        (some OverTarget.keyboardArea) mf cf).grid s = none ∧
    (∀ j, j ≠ s →
      (handleDragEnd state hist ⟨DragOrigin.grid, c, oid, some s⟩
          (some OverTarget.keyboardArea) mf cf).grid j = state j) ∧
    (handleDragEnd state hist ⟨DragOrigin.grid, c, oid, some s⟩
        (some OverTarget.keyboardArea) mf cf).history = hist ++ [state] ∧
    (handleDragEnd state hist ⟨DragOrigin.grid, c, oid, some s⟩
        (some OverTarget.keyboardArea) mf cf).spoken = none := by
  refine ⟨?_, ?_, rfl, rfl⟩
  · simp [handleDragEnd, delCell]
  · intro j hj
    simp [handleDragEnd, delCell, hj]

/-- Witness for C8 on a concrete grid and drag. -/
theorem c8_delete_drop_witness :
    (handleDragEnd stKO [] ⟨DragOrigin.grid, "К", some "i1", some 0⟩
        (some OverTarget.keyboardArea) "m" "c").grid 0 = none ∧
    (handleDragEnd stKO [] ⟨DragOrigin.grid, "К", some "i1", some 0⟩
        (some OverTarget.keyboardArea) "m" "c").grid 1 = some ⟨"i2", "О"⟩ ∧
    (handleDragEnd stKO [] ⟨DragOrigin.grid, "К", some "i1", some 0⟩
        (some OverTarget.keyboardArea) "m" "c").history = [stKO] ∧
    (handleDragEnd stKO [] ⟨DragOrigin.grid, "К", some "i1", some 0⟩
        (some OverTarget.keyboardArea) "m" "c").spoken = none := by
  obtain ⟨h1, h2, h3, h4⟩ :=
    c8_delete_drop stKO [] "К" (some "i1") 0 "m" "c"
  refine ⟨h1, ?_, h3, h4⟩
  rw [h2 1 (by decide)]
  rfl

/-- C1: a grid-origin drag-end onto a different cell `t` puts the dragged
tile (same char and instance id) at `t`; a previous occupant of `t` is
moved back to the source cell `s`, an empty `t` leaves `s` empty; every
other cell is unchanged. -/
theorem c1_move_swap (state : GridState) (hist : List GridState) (item : GridItem)
    (s t : Nat) (mf cf : String) (hs : state s = some item) (hid : item.id ≠ "")
    (hne : t ≠ s) :
    (handleDragEnd state hist ⟨DragOrigin.grid, item.char, some item.id, some s⟩
        (some (OverTarget.cell t)) mf cf).grid t = some item ∧
    (∀ occ, state t = some occ →
      (handleDragEnd state hist ⟨DragOrigin.grid, item.char, some item.id, some s⟩
          (some (OverTarget.cell t)) mf cf).grid s = some occ) ∧
    (state t = none →
      (handleDragEnd state hist ⟨DragOrigin.grid, item.char, some item.id, some s⟩
          (some (OverTarget.cell t)) mf cf).grid s = none) ∧
    (∀ j, j ≠ s → j ≠ t →
      (handleDragEnd state hist ⟨DragOrigin.grid, item.char, some item.id, some s⟩
          (some (OverTarget.cell t)) mf cf).grid j = state j) := by
  have hne' : s ≠ t := fun h => hne h.symm
  rw [handleDragEnd_move state hist item.char (some item.id) s t mf cf hne']
  have hfalsy : jsFalsyOr (some item.id) mf = item.id := by
    simp [jsFalsyOr, hid]
  refine ⟨?_, ?_, ?_, ?_⟩
  · cases h : state t with
    | none => simp [h, hfalsy, setCell]
    | some occ => simp [h, hfalsy, setCell]
  · intro occ hocc
    simp [hocc, setCell, delCell, hne, hne']
  · intro hnone
    simp [hnone, setCell, delCell, hne, hne']
  · intro j hjs hjt
    cases h : state t with
    | none => simp [h, setCell, delCell, hjs, hjt]
    | some occ => simp [h, setCell, delCell, hjs, hjt]

/-- The only occupied cell of `stK` is cell 0. -/
theorem stK_cases (i : Nat) (it : GridItem) (h : stK i = some it) :
    i = 0 ∧ it = ⟨"i1", "К"⟩ := by
  unfold stK setCell emptyGrid at h
  by_cases h0 : i = 0
  · subst h0
    simp at h
    exact ⟨rfl, h.symm⟩
  · simp [h0] at h

/-- Witness for C1: swapping "К" (cell 0) onto "О" (cell 1). -/
theorem c1_move_swap_witness :
    (handleDragEnd stKO [] ⟨DragOrigin.grid, "К", some "i1", some 0⟩
        (some (OverTarget.cell 1)) "m" "c").grid 1 = some ⟨"i1", "К"⟩ ∧
    (handleDragEnd stKO [] ⟨DragOrigin.grid, "К", some "i1", some 0⟩
        (some (OverTarget.cell 1)) "m" "c").grid 0 = some ⟨"i2", "О"⟩ ∧
    (handleDragEnd stKO [] ⟨DragOrigin.grid, "К", some "i1", some 0⟩
        (some (OverTarget.cell 1)) "m" "c").grid 2 = stKO 2 := by
  obtain ⟨h1, h2, _, h4⟩ :=
    c1_move_swap stKO [] ⟨"i1", "К"⟩ 0 1 "m" "c" (by decide) (by decide) (by decide)
  exact ⟨h1, h2 ⟨"i2", "О"⟩ (by decide), h4 2 (by decide) (by decide)⟩

/-- C3: every accepted drop onto a grid cell `t` (one that grew the
history) makes exactly one speech call, after the commit: the connected
word at `t` in the new state when its length is at least 2, otherwise the
dropped character. -/
theorem c3_speech_on_accept (state : GridState) (hist : List GridState) (data : DragData)
    (t : Nat) (mf cf : String)
    (hacc : (handleDragEnd state hist data (some (OverTarget.cell t)) mf cf).history ≠ hist) :
    (handleDragEnd state hist data (some (OverTarget.cell t)) mf cf).spoken =
      some
        (if 2 ≤ (getConnectedWord
            (handleDragEnd state hist data (some (OverTarget.cell t)) mf cf).grid t).length
         then getConnectedWord
            (handleDragEnd state hist data (some (OverTarget.cell t)) mf cf).grid t
         else data.char) := by
  obtain ⟨o, c, oid, oidx⟩ := data
  cases o with
  | keyboard => rfl
  | grid =>
    cases oidx with
    | none => exact absurd rfl hacc
    | some s =>
      by_cases hst : s = t
      · subst hst
        rw [c7_same_cell_noop] at hacc
        simp at hacc
      · rw [handleDragEnd_move state hist c oid s t mf cf hst]

/-- Witness for C3: cloning "Т" onto cell 2 next to "К","О" speaks the
connected word "КОТ". -/
theorem c3_speech_on_accept_witness :
    (handleDragEnd stKO [] ⟨DragOrigin.keyboard, "Т", some "keyboard-Т", none⟩
        (some (OverTarget.cell 2)) "m" "c").spoken = some "КОТ" := by
  have h := c3_speech_on_accept stKO [] ⟨DragOrigin.keyboard, "Т", some "keyboard-Т", none⟩
    2 "m" "c" (by intro h; exact absurd (congrArg List.length h) (by decide))
  exact h.trans (by decide)

/-- C10: when every cell is empty, `handleClear` is a complete no-op (no
snapshot push, no reset, no sound cue); when some cell is occupied it
pushes the pre-clear grid, resets, and plays the rustle cue.  The grid is
assumed to keep all its keys in range, as the data model requires. -/
theorem c10_clear_empty_noop (g : GridState) (hsupp : ∀ i, TOTAL_CELLS ≤ i → g i = none) :
    ((∀ i, g i = none) → handleClear g = ⟨g, none, none⟩) ∧
    ((∃ i it, g i = some it) → handleClear g = ⟨emptyGrid, some g, some SoundKind.rustle⟩) := by
  constructor
  · intro hall
    have hz : gridKeyCount g = 0 := by
      simp only [gridKeyCount, List.length_eq_zero, List.filter_eq_nil_iff]
      intro a _
      simp [hall a]
    simp [handleClear, hz]
  · intro ⟨i, it, hi⟩
    have hnz : gridKeyCount g ≠ 0 := by
      intro hz
      simp only [gridKeyCount, List.length_eq_zero, List.filter_eq_nil_iff] at hz
      rcases Nat.lt_or_ge i TOTAL_CELLS with hlt | hge
      · have := hz i (List.mem_range.mpr hlt)
        simp [hi] at this
      · rw [hsupp i hge] at hi
        exact Option.noConfusion hi
    simp [handleClear, hnz]

/-- Witness for C10: clearing the empty grid is a no-op; clearing the
one-tile grid pushes and resets. -/
theorem c10_clear_empty_noop_witness :
    handleClear emptyGrid = ⟨emptyGrid, none, none⟩ ∧
    handleClear stK = ⟨emptyGrid, some stK, some SoundKind.rustle⟩ := by
  constructor
  · exact (c10_clear_empty_noop emptyGrid (fun _ _ => rfl)).1 (fun _ => rfl)
  · refine (c10_clear_empty_noop stK ?_).2 ⟨0, ⟨"i1", "К"⟩, by decide⟩
    intro i hi
    have h0 : i ≠ 0 := by
      intro h
      rw [h] at hi
      exact absurd hi (by decide)
    simp [stK, setCell, emptyGrid, h0]

/-- C6: undo on an empty history is a no-op; undo pops exactly the most
recent snapshot and installs it; hence undo directly after any accepted
mutation restores the pre-mutation grid and history, and two undos after
two accepted placements restore the empty grid. -/
theorem c6_undo_restores (supply : Nat → String) :
    (∀ g, handleUndo g [] = ⟨g, [], none⟩) ∧
    (∀ g h p, handleUndo g (h ++ [p]) = ⟨p, h, some SoundKind.rustle⟩) ∧
    (∀ s e, (stepSession supply s e).hist = s.hist ++ [s.grid] →
      (handleUndo (stepSession supply s e).grid (stepSession supply s e).hist).grid = s.grid ∧
      (handleUndo (stepSession supply s e).grid (stepSession supply s e).hist).hist = s.hist) ∧
    ((runFrom supply
        (stepSession supply
          (stepSession supply initSession
            (UserEvent.dragKeyboard "А" (some (OverTarget.cell 0))))
          (UserEvent.dragKeyboard "Б" (some (OverTarget.cell 1))))
        [UserEvent.undoEv, UserEvent.undoEv]).grid = emptyGrid ∧
      (runFrom supply
        (stepSession supply
          (stepSession supply initSession
            (UserEvent.dragKeyboard "А" (some (OverTarget.cell 0))))
          (UserEvent.dragKeyboard "Б" (some (OverTarget.cell 1))))
        [UserEvent.undoEv, UserEvent.undoEv]).hist = []) := by
  have hpop : ∀ (g : GridState) (h : List GridState) (p : GridState),
      handleUndo g (h ++ [p]) = ⟨p, h, some SoundKind.rustle⟩ := by
    intro g h p
    simp [handleUndo, List.getLast?_concat, List.dropLast_concat]
  refine ⟨fun g => rfl, hpop, ?_, rfl, rfl⟩
  intro s e hstep
  rw [hstep, hpop]
  exact ⟨rfl, rfl⟩

/-- Witness for C6: undo after one accepted keyboard placement restores
the empty grid and empty history. -/
theorem c6_undo_restores_witness :
    (handleUndo
        (stepSession supplyA initSession
          (UserEvent.dragKeyboard "А" (some (OverTarget.cell 0)))).grid
        (stepSession supplyA initSession
          (UserEvent.dragKeyboard "А" (some (OverTarget.cell 0)))).hist).grid = emptyGrid ∧
    (handleUndo
        (stepSession supplyA initSession
          (UserEvent.dragKeyboard "А" (some (OverTarget.cell 0)))).grid
        (stepSession supplyA initSession
          (UserEvent.dragKeyboard "А" (some (OverTarget.cell 0)))).hist).hist = [] := by
  exact (c6_undo_restores supplyA).2.2.1 initSession
    (UserEvent.dragKeyboard "А" (some (OverTarget.cell 0))) rfl

/-- C2 counterexample: a grid-origin drop onto the keyboard area whose
payload has no source index leaves the grid exactly unchanged yet still
appends a history snapshot — so a no-op drag can grow History. -/
theorem c2_counterexample_missing_index :
    (handleDragEnd stKO [] ⟨DragOrigin.grid, "К", some "i1", none⟩
        (some OverTarget.keyboardArea) "m" "c").grid = stKO ∧
    (handleDragEnd stKO [] ⟨DragOrigin.grid, "К", some "i1", none⟩
        (some OverTarget.keyboardArea) "m" "c").history = [stKO] := by
  exact ⟨rfl, rfl⟩

/-- C2 (amended): for drags whose grid-origin payload carries a source
index referencing an occupied cell with matching instance id, over a grid
with distinct nonempty instance ids and a fresh clone id, at most one
snapshot — always the pre-mutation grid — is appended, and it is appended
exactly when the drag changes the grid.  (A grid-origin keyboard-area
drop with a missing source index, excluded here, pushes without any
change.) -/
theorem c2_push_iff_change (state : GridState) (hist : List GridState) (data : DragData)
    (over : Option OverTarget) (mf cf : String)
    (hidx : data.origin = DragOrigin.grid → data.index ≠ none)
    (hfaith : ∀ s, data.origin = DragOrigin.grid → data.index = some s →
      ∃ it, state s = some it ∧ data.id = some it.id)
    (hgood : GoodState state)
    (hne : ∀ i it, state i = some it → it.id ≠ "")
    (hfresh : ∀ i it, state i = some it → it.id ≠ cf) :
    ((handleDragEnd state hist data over mf cf).history = hist ++ [state] ∨
      (handleDragEnd state hist data over mf cf).history = hist) ∧
    ((handleDragEnd state hist data over mf cf).history = hist ++ [state] ↔
      ∃ j, (handleDragEnd state hist data over mf cf).grid j ≠ state j) := by
  have hconcat_ne : hist ≠ hist ++ [state] := by
    intro h
    have := congrArg List.length h
    simp at this
  obtain ⟨o, c, oid, oidx⟩ := data
  match over with
  | none =>
    refine ⟨Or.inr rfl, ?_, ?_⟩
    · intro h
      exact (hconcat_ne h).elim
    · intro ⟨j, hj⟩
      exact absurd rfl hj
  | some OverTarget.keyboardArea =>
    cases o with
    | keyboard =>
      refine ⟨Or.inr rfl, ?_, ?_⟩
      · intro h
        exact (hconcat_ne h).elim
      · intro ⟨j, hj⟩
        exact absurd rfl hj
    | grid =>
      cases oidx with
      | none => exact absurd rfl (hidx rfl)
      | some i =>
        obtain ⟨it, hit, -⟩ := hfaith i rfl rfl
        refine ⟨Or.inl rfl, ?_, fun _ => rfl⟩
        intro _
        refine ⟨i, ?_⟩
        show delCell state i i ≠ state i
        rw [delCell_self, hit]
        exact fun h => Option.noConfusion h
  | some (OverTarget.cell t) =>
    cases o with
    | keyboard =>
      rw [handleDragEnd_clone state hist c oid oidx t mf cf]
      refine ⟨Or.inl rfl, ?_, fun _ => rfl⟩
      intro _
      refine ⟨t, ?_⟩
      cases h : state t with
      | none =>
        simp only [setCell_self]
        exact fun hx => Option.noConfusion hx
      | some occ =>
        simp only [setCell_self]
        intro heq
        have hid : cf = occ.id := congrArg GridItem.id (Option.some.inj heq)
        exact absurd hid.symm (hfresh t occ h)
    | grid =>
      cases oidx with
      | none => exact absurd rfl (hidx rfl)
      | some s =>
        by_cases hst : s = t
        · subst hst
          refine ⟨Or.inr (by rw [c7_same_cell_noop]), ?_, ?_⟩
          · intro h
            rw [c7_same_cell_noop] at h
            exact (hconcat_ne h).elim
          · intro ⟨j, hj⟩
            rw [c7_same_cell_noop] at hj
            exact absurd rfl hj
        · obtain ⟨it, hit, hoid⟩ := hfaith s rfl rfl
          subst hoid
          have hfalsy : jsFalsyOr (some it.id) mf = it.id := by
            simp [jsFalsyOr, hne s it hit]
          rw [handleDragEnd_move state hist c (some it.id) s t mf cf hst]
          refine ⟨Or.inl rfl, ?_, fun _ => rfl⟩
          intro _
          refine ⟨t, ?_⟩
          cases h : state t with
          | none =>
            simp only [setCell_self]
            exact fun hx => Option.noConfusion hx
          | some occ =>
            simp only [setCell_self]
            intro heq
            have hid : jsFalsyOr (some it.id) mf = occ.id :=
              congrArg GridItem.id (Option.some.inj heq)
            rw [hfalsy] at hid
            exact absurd hid (hgood s t it occ hit h hst)

/-- Witness for C2 (amended): a real move of the single tile from cell 0
to cell 1 appends exactly the pre-mutation snapshot. -/
theorem c2_push_iff_change_witness :
    (handleDragEnd stK [] ⟨DragOrigin.grid, "К", some "i1", some 0⟩
        (some (OverTarget.cell 1)) "m" "c").history = [] ++ [stK] := by
  have h := c2_push_iff_change stK [] ⟨DragOrigin.grid, "К", some "i1", some 0⟩
    (some (OverTarget.cell 1)) "m" "c"
    (fun _ => by intro h; exact Option.noConfusion h)
    (by
      intro s _ hs
      injection hs with hs0
      subst hs0
      exact ⟨⟨"i1", "К"⟩, by decide, rfl⟩)
    (by
      intro i j ti tj hi hj hij
      obtain ⟨hi0, -⟩ := stK_cases i ti hi
      obtain ⟨hj0, -⟩ := stK_cases j tj hj
      exact absurd (hi0.trans hj0.symm) hij)
    (by
      intro i it h
      obtain ⟨-, rfl⟩ := stK_cases i it h
      decide)
    (by
      intro i it h
      obtain ⟨-, rfl⟩ := stK_cases i it h
      decide)
  exact h.2.mpr ⟨1, by decide⟩

theorem GRID_COLS_eq : GRID_COLS = 11 := rfl

theorem TOTAL_CELLS_eq : TOTAL_CELLS = 55 := rfl

theorem scanLeft_le (st : GridState) (row : Nat) : ∀ i, scanLeft st row i ≤ i := by
  intro i
  induction i with
  | zero => exact Nat.le_refl 0
  | succ s ih =>
    rw [scanLeft]
    split
    · exact Nat.le_trans ih (Nat.le_succ s)
    · exact Nat.le_refl _

theorem scanLeft_mem (st : GridState) (row : Nat) :
    ∀ i k, scanLeft st row i ≤ k → k < i →
      k / GRID_COLS = row ∧ (st k).isSome = true := by
  intro i
  induction i with
  | zero => intro k _ hk; exact absurd hk (Nat.not_lt_zero k)
  | succ s ih =>
    intro k hk1 hk2
    rw [scanLeft] at hk1
    by_cases hc : s / GRID_COLS = row ∧ (st s).isSome = true
    · rw [if_pos hc] at hk1
      rcases Nat.lt_or_ge k s with hlt | hge
      · exact ih k hk1 hlt
      · have : k = s := Nat.le_antisymm (Nat.lt_succ_iff.mp hk2) hge
        subst this
        exact hc
    · rw [if_neg hc] at hk1
      exact absurd hk2 (Nat.not_lt_of_ge hk1)

theorem scanLeft_boundary (st : GridState) (row : Nat) :
    ∀ i, scanLeft st row i = 0 ∨
      ¬((scanLeft st row i - 1) / GRID_COLS = row ∧
        (st (scanLeft st row i - 1)).isSome = true) := by
  intro i
  induction i with
  | zero => exact Or.inl rfl
  | succ s ih =>
    rw [scanLeft]
    by_cases hc : s / GRID_COLS = row ∧ (st s).isSome = true
    · rw [if_pos hc]
      exact ih
    · rw [if_neg hc]
      exact Or.inr (by simpa using hc)

theorem scanLeft_stable (st : GridState) (row s : Nat)
    (hbound : s = 0 ∨
      ¬((s - 1) / GRID_COLS = row ∧ (st (s - 1)).isSome = true)) :
    ∀ j, s ≤ j →
      (∀ k, s ≤ k → k < j → k / GRID_COLS = row ∧ (st k).isSome = true) →
      scanLeft st row j = s := by
  intro j
  induction j with
  | zero =>
    intro hj _
    have hs0 : s = 0 := Nat.le_zero.mp hj
    subst hs0
    rfl
  | succ m ih =>
    intro hj hrun
    rcases Nat.lt_or_ge s (m + 1) with hlt | hge
    · have hsm : s ≤ m := Nat.lt_succ_iff.mp hlt
      rw [scanLeft, if_pos (hrun m hsm (Nat.lt_succ_self m))]
      exact ih hsm (fun k hk1 hk2 => hrun k hk1 (Nat.lt_succ_of_lt hk2))
    · have heq : s = m + 1 := Nat.le_antisymm hj hge
      subst heq
      rw [scanLeft]
      rcases hbound with h0 | hnc
      · exact absurd h0 (Nat.succ_ne_zero m)
      · rw [if_neg (by simpa using hnc)]

theorem scanRightFuel_ge (st : GridState) (row : Nat) :
    ∀ fuel e, e ≤ scanRightFuel st row fuel e := by
  intro fuel
  induction fuel with
  | zero => intro e; exact Nat.le_refl e
  | succ f ih =>
    intro e
    rw [scanRightFuel]
    split
    · exact Nat.le_trans (Nat.le_succ e) (ih (e + 1))
    · exact Nat.le_refl e

theorem scanRightFuel_le (st : GridState) (row : Nat) :
    ∀ fuel e, e ≤ TOTAL_CELLS - 1 → scanRightFuel st row fuel e ≤ TOTAL_CELLS - 1 := by
  intro fuel
  induction fuel with
  | zero => intro e he; exact he
  | succ f ih =>
    intro e he
    rw [scanRightFuel]
    split
    · next hc => exact ih (e + 1) (Nat.succ_le_of_lt hc.1)
    · exact he

theorem scanRightFuel_mem (st : GridState) (row : Nat) :
    ∀ fuel e k, e < k → k ≤ scanRightFuel st row fuel e →
      k / GRID_COLS = row ∧ (st k).isSome = true := by
  intro fuel
  induction fuel with
  | zero =>
    intro e k hk1 hk2
    exact absurd hk1 (Nat.not_lt_of_ge hk2)
  | succ f ih =>
    intro e k hk1 hk2
    rw [scanRightFuel] at hk2
    by_cases hc : e < TOTAL_CELLS - 1 ∧ (e + 1) / GRID_COLS = row ∧ (st (e + 1)).isSome = true
    · rw [if_pos hc] at hk2
      rcases Nat.lt_or_ge (e + 1) k with hlt | hge
      · exact ih (e + 1) k hlt hk2
      · have : k = e + 1 := Nat.le_antisymm hge (Nat.succ_le_of_lt hk1)
        subst this
        exact hc.2
    · rw [if_neg hc] at hk2
      exact absurd hk1 (Nat.not_lt_of_ge hk2)

theorem scanRightFuel_boundary (st : GridState) (row : Nat) :
    ∀ fuel e, TOTAL_CELLS ≤ e + fuel →
      ¬(scanRightFuel st row fuel e < TOTAL_CELLS - 1 ∧
        (scanRightFuel st row fuel e + 1) / GRID_COLS = row ∧
        (st (scanRightFuel st row fuel e + 1)).isSome = true) := by
  intro fuel
  induction fuel with
  | zero =>
    intro e he
    rw [scanRightFuel]
    intro hx
    obtain ⟨h1, -⟩ := hx
    rw [TOTAL_CELLS_eq] at he h1
    omega
  | succ f ih =>
    intro e he
    rw [scanRightFuel]
    by_cases hc : e < TOTAL_CELLS - 1 ∧ (e + 1) / GRID_COLS = row ∧ (st (e + 1)).isSome = true
    · rw [if_pos hc]
      exact ih (e + 1) (by omega)
    · rw [if_neg hc]
      exact hc

theorem scanRightFuel_stable (st : GridState) (row e : Nat)
    (he : e ≤ TOTAL_CELLS - 1)
    (hb : ¬(e < TOTAL_CELLS - 1 ∧ (e + 1) / GRID_COLS = row ∧
      (st (e + 1)).isSome = true)) :
    ∀ fuel j, j ≤ e → TOTAL_CELLS ≤ j + fuel →
      (∀ k, j < k → k ≤ e → k / GRID_COLS = row ∧ (st k).isSome = true) →
      scanRightFuel st row fuel j = e := by
  intro fuel
  induction fuel with
  | zero =>
    intro j hj hfuel _
    rw [TOTAL_CELLS_eq] at hfuel he
    omega
  | succ f ih =>
    intro j hj hfuel hrun
    rcases Nat.lt_or_ge j e with hlt | hge
    · have hcond : j < TOTAL_CELLS - 1 ∧ (j + 1) / GRID_COLS = row ∧
          (st (j + 1)).isSome = true := by
        refine ⟨Nat.lt_of_lt_of_le hlt he, ?_, ?_⟩
        · exact (hrun (j + 1) (Nat.lt_succ_self j) (Nat.succ_le_of_lt hlt)).1
        · exact (hrun (j + 1) (Nat.lt_succ_self j) (Nat.succ_le_of_lt hlt)).2
      rw [scanRightFuel, if_pos hcond]
      exact ih (j + 1) (Nat.succ_le_of_lt hlt) (by omega)
        (fun k hk1 hk2 => hrun k (Nat.lt_of_succ_lt hk1) hk2)
    · have hje : j = e := Nat.le_antisymm hj hge
      subst hje
      rw [scanRightFuel, if_neg hb]

/-- The length of the collected word equals the cell count when every
collected cell is occupied by a single-character tile. -/
theorem collectChars_length (st : GridState) :
    ∀ n start,
      (∀ k, start ≤ k → k < start + n →
        ∃ it, st k = some it ∧ it.char.length = 1) →
      (collectChars st start n).length = n := by
  intro n
  induction n with
  | zero => intro start _; rfl
  | succ m ih =>
    intro start hocc
    obtain ⟨it, hit, hlen⟩ := hocc start (Nat.le_refl start) (by omega)
    rw [collectChars, hit]
    rw [String.length_append, hlen, ih (start + 1) (fun k hk1 hk2 => hocc k (by omega) (by omega))]
    omega

/-- C4: `getConnectedWord` returns the empty string on an empty cell;
on an occupied in-range cell it returns the characters of the maximal
same-row contiguous occupied run containing the cell, concatenated left
to right, the same string (of one character per cell) from any index of
the run. -/
theorem c4_connected_word (st : GridState) (i : Nat) (hi : i < TOTAL_CELLS) :
    (st i = none → getConnectedWord st i = "") ∧
    (∀ it, st i = some it → ∃ s e, s ≤ i ∧ i ≤ e ∧ e < TOTAL_CELLS ∧
      (∀ k, s ≤ k → k ≤ e → k / GRID_COLS = i / GRID_COLS ∧ (st k).isSome = true) ∧
      (s % GRID_COLS = 0 ∨ st (s - 1) = none) ∧
      (e % GRID_COLS = GRID_COLS - 1 ∨ st (e + 1) = none) ∧
      getConnectedWord st i = collectChars st s (e + 1 - s) ∧
      (∀ j, s ≤ j → j ≤ e → getConnectedWord st j = getConnectedWord st i) ∧
      ((∀ k it2, st k = some it2 → it2.char.length = 1) →
        (getConnectedWord st i).length = e + 1 - s)) := by
  constructor
  · intro hnone
    simp [getConnectedWord, hnone]
  · intro it hit
    set row := i / GRID_COLS with hrow
    set s := scanLeft st row i with hsdef
    set e := scanRightFuel st row TOTAL_CELLS i with hedef
    have hoccI : (st i).isSome = true := by rw [hit]; rfl
    have hs_le : s ≤ i := scanLeft_le st row i
    have he_ge : i ≤ e := scanRightFuel_ge st row TOTAL_CELLS i
    have hi' : i ≤ TOTAL_CELLS - 1 := by rw [TOTAL_CELLS_eq] at *; omega
    have he_le : e ≤ TOTAL_CELLS - 1 := scanRightFuel_le st row TOTAL_CELLS i hi'
    have hrun : ∀ k, s ≤ k → k ≤ e → k / GRID_COLS = row ∧ (st k).isSome = true := by
      intro k hk1 hk2
      rcases Nat.lt_trichotomy k i with hlt | heq | hgt
      · exact scanLeft_mem st row i k hk1 hlt
      · subst heq
        exact ⟨hrow.symm, hoccI⟩
      · exact scanRightFuel_mem st row TOTAL_CELLS i k hgt hk2
    have hlb : s % GRID_COLS = 0 ∨ st (s - 1) = none := by
      rcases scanLeft_boundary st row i with h0 | hnc
      · rw [← hsdef] at h0
        rw [h0]
        exact Or.inl rfl
      · rw [← hsdef] at hnc
        by_cases hs0 : s = 0
        · rw [hs0]
          exact Or.inl rfl
        · by_cases hrow1 : (s - 1) / GRID_COLS = row
          · refine Or.inr ?_
            have : ¬((st (s - 1)).isSome = true) := fun hx => hnc ⟨hrow1, hx⟩
            cases hx : st (s - 1) with
            | none => rfl
            | some v => rw [hx] at this; exact absurd rfl this
          · refine Or.inl ?_
            have hsrow : s / GRID_COLS = row := (hrun s (Nat.le_refl s) (Nat.le_trans hs_le he_ge)).1
            rw [GRID_COLS_eq] at hrow1 hsrow ⊢
            omega
    have hbr := scanRightFuel_boundary st row TOTAL_CELLS i (by rw [TOTAL_CELLS_eq]; omega)
    rw [← hedef] at hbr
    have hrb : e % GRID_COLS = GRID_COLS - 1 ∨ st (e + 1) = none := by
      by_cases h1 : e < TOTAL_CELLS - 1
      · by_cases h2 : (e + 1) / GRID_COLS = row
        · refine Or.inr ?_
          have : ¬((st (e + 1)).isSome = true) := fun hx => hbr ⟨h1, h2, hx⟩
          cases hx : st (e + 1) with
          | none => rfl
          | some v => rw [hx] at this; exact absurd rfl this
        · refine Or.inl ?_
          have herow : e / GRID_COLS = row := (hrun e (Nat.le_trans hs_le he_ge) (Nat.le_refl e)).1
          have hirow : i / GRID_COLS = row := hrow.symm
          rw [GRID_COLS_eq] at h2 herow ⊢
          omega
      · refine Or.inl ?_
        rw [TOTAL_CELLS_eq] at h1 he_le
        rw [GRID_COLS_eq]
        omega
    have hword : getConnectedWord st i = collectChars st s (e + 1 - s) := by
      rw [getConnectedWord, hit]
      rfl
    have hsame : ∀ j, s ≤ j → j ≤ e → getConnectedWord st j = getConnectedWord st i := by
      intro j hj1 hj2
      obtain ⟨hjrow, hjocc⟩ := hrun j hj1 hj2
      obtain ⟨itj, hitj⟩ := Option.isSome_iff_exists.mp hjocc
      have hscanl : scanLeft st row j = s := by
        refine scanLeft_stable st row s (by
          rcases scanLeft_boundary st row i with h0 | hnc
          · exact Or.inl (hsdef ▸ h0)
          · exact Or.inr (hsdef ▸ hnc)) j hj1 ?_
        intro k hk1 hk2
        exact hrun k hk1 (Nat.le_trans (Nat.le_of_lt hk2) hj2)
      have hscanr : scanRightFuel st row TOTAL_CELLS j = e := by
        refine scanRightFuel_stable st row e he_le hbr TOTAL_CELLS j hj2
          (by rw [TOTAL_CELLS_eq]; omega) ?_
        intro k hk1 hk2
        exact hrun k (Nat.le_trans hj1 (Nat.le_of_lt hk1)) hk2
      rw [getConnectedWord, hitj, getConnectedWord, hit]
      show collectChars st (scanLeft st (j / GRID_COLS) j)
          (scanRight st (j / GRID_COLS) j + 1 - scanLeft st (j / GRID_COLS) j) =
        collectChars st (scanLeft st (i / GRID_COLS) i)
          (scanRight st (i / GRID_COLS) i + 1 - scanLeft st (i / GRID_COLS) i)
      rw [hjrow, scanRight]
      rw [show i / GRID_COLS = row from hrow.symm, scanRight]
      rw [hscanl, hscanr, ← hsdef, ← hedef]
    refine ⟨s, e, hs_le, he_ge, ?_, ?_, hlb, hrb, hword, hsame, ?_⟩
    · rw [TOTAL_CELLS_eq] at he_le ⊢; omega
    · intro k hk1 hk2
      exact ⟨(hrun k hk1 hk2).1.trans hrow, (hrun k hk1 hk2).2⟩
    · intro hchar
      rw [hword]
      refine collectChars_length st (e + 1 - s) s ?_
      intro k hk1 hk2
      have hkrun := hrun k hk1 (by omega)
      obtain ⟨itk, hitk⟩ := Option.isSome_iff_exists.mp hkrun.2
      exact ⟨itk, hitk, hchar k itk hitk⟩

/-- Witness for C4: the empty cell 3 of the "КОТ" grid yields "". -/
theorem c4_connected_word_witness : getConnectedWord stKOT 3 = "" :=
  (c4_connected_word stKOT 3 (by decide)).1 (by decide)

theorem goodState_empty : GoodState emptyGrid := by
  intro i j ti tj hi _ _
  exact Option.noConfusion hi

theorem idsFrom_empty (supply : Nat → String) (n : Nat) : IdsFrom supply n emptyGrid := by
  intro i t hi
  exact Option.noConfusion hi

theorem idsFrom_mono (supply : Nat → String) (n m : Nat) (g : GridState)
    (h : IdsFrom supply n g) (hnm : n ≤ m) : IdsFrom supply m g := by
  intro i t hi
  obtain ⟨k, hk, hs⟩ := h i t hi
  exact ⟨k, Nat.lt_of_lt_of_le hk hnm, hs⟩

theorem goodState_del (g : GridState) (i : Nat) (h : GoodState g) :
    GoodState (delCell g i) := by
  intro a b ta tb ha hb hab
  rw [delCell] at ha hb
  by_cases ha' : a = i
  · rw [if_pos ha'] at ha
    exact Option.noConfusion ha
  · rw [if_neg ha'] at ha
    by_cases hb' : b = i
    · rw [if_pos hb'] at hb
      exact Option.noConfusion hb
    · rw [if_neg hb'] at hb
      exact h a b ta tb ha hb hab

theorem idsFrom_del (supply : Nat → String) (n : Nat) (g : GridState) (i : Nat)
    (h : IdsFrom supply n g) : IdsFrom supply n (delCell g i) := by
  intro a t ha
  rw [delCell] at ha
  by_cases ha' : a = i
  · rw [if_pos ha'] at ha
    exact Option.noConfusion ha
  · rw [if_neg ha'] at ha
    exact h a t ha

theorem goodState_comp (g : GridState) (f : Nat → Nat) (hinj : Function.Injective f)
    (hg : GoodState g) : GoodState (fun j => g (f j)) := by
  intro a b ta tb ha hb hab
  exact hg (f a) (f b) ta tb ha hb (fun h => hab (hinj h))

theorem idsFrom_comp (supply : Nat → String) (n : Nat) (g : GridState) (f : Nat → Nat)
    (h : IdsFrom supply n g) : IdsFrom supply n (fun j => g (f j)) := by
  intro a t ha
  exact h (f a) t ha

theorem swapIdx_involutive (s t : Nat) : ∀ j, swapIdx s t (swapIdx s t j) = j := by
  intro j
  unfold swapIdx
  by_cases hjt : j = t
  · by_cases hst : s = t
    · simp [hjt, hst]
    · simp [hjt, hst]
  · by_cases hjs : j = s
    · simp [hjt, hjs]
    · simp [hjt, hjs]

theorem swapIdx_injective (s t : Nat) : Function.Injective (swapIdx s t) :=
  Function.LeftInverse.injective (swapIdx_involutive s t)

/-- The grid produced by the move branch is the original grid with the
source and target cells swapped, as long as the dragged tile's id is
nonempty (so no fresh id is synthesized). -/
theorem move_grid_as_swap (state : GridState) (hist : List GridState) (item : GridItem)
    (s t : Nat) (mf cf : String) (hs : state s = some item) (hid : item.id ≠ "")
    (hst : s ≠ t) :
    (handleDragEnd state hist ⟨DragOrigin.grid, item.char, some item.id, some s⟩
        (some (OverTarget.cell t)) mf cf).grid =
      fun j => state (swapIdx s t j) := by
  funext j
  rw [handleDragEnd_move state hist item.char (some item.id) s t mf cf hst]
  have hfalsy : jsFalsyOr (some item.id) mf = item.id := by
    simp [jsFalsyOr, hid]
  show setCell
      (match state t with
       | some occ => setCell (delCell state s) s occ
       | none => delCell state s) t
      { id := jsFalsyOr (some item.id) mf, char := item.char } j =
    state (swapIdx s t j)
  rw [hfalsy]
  unfold swapIdx
  by_cases hjt : j = t
  · subst hjt
    rw [setCell_self, if_pos rfl, hs]
  · rw [setCell_other _ _ _ _ hjt, if_neg hjt]
    by_cases hjs : j = s
    · subst hjs
      rw [if_pos rfl]
      cases hx : state t with
      | none => simp [delCell]
      | some occ => simp [setCell]
    · rw [if_neg hjs]
      cases hx : state t with
      | none => simp [delCell, hjs]
      | some occ => simp [setCell, delCell, hjs]

theorem stepSession_ctr_le (supply : Nat → String) (s : Session) (e : UserEvent) :
    s.ctr ≤ (stepSession supply s e).ctr := by
  cases e with
  | dragGrid src over =>
    rw [stepSession]
    cases hx : s.grid src with
    | none => exact Nat.le_refl _
    | some item => exact Nat.le_succ _
  | dragKeyboard c over => exact Nat.le_succ _
  | clearEv =>
    rw [stepSession]
    cases hx : (handleClear s.grid).pushedSnapshot with
    | none => exact Nat.le_refl _
    | some snap => exact Nat.le_refl _
  | undoEv => exact Nat.le_refl _

theorem runFrom_ctr_le (supply : Nat → String) :
    ∀ tr s, s.ctr ≤ (runFrom supply s tr).ctr := by
  intro tr
  induction tr with
  | nil => intro s; exact Nat.le_refl _
  | cons e es ih =>
    intro s
    exact Nat.le_trans (stepSession_ctr_le supply s e) (ih (stepSession supply s e))

/-- One session step preserves the id invariant, given an injective,
nonempty id supply. -/
theorem sessInv_step (supply : Nat → String) (hinj : Function.Injective supply)
    (hne : ∀ n, supply n ≠ "") (s : Session) (hi : SessInv supply s) (e : UserEvent) :
    SessInv supply (stepSession supply s e) := by
  obtain ⟨⟨hgood, hids⟩, hhist⟩ := hi
  cases e with
  | dragGrid src over =>
    cases hx : s.grid src with
    | none =>
      have hstep : stepSession supply s (UserEvent.dragGrid src over) = s := by
        simp only [stepSession, hx]
      rw [hstep]
      exact ⟨⟨hgood, hids⟩, hhist⟩
    | some item =>
      have hstep : stepSession supply s (UserEvent.dragGrid src over) =
          ⟨(handleDragEnd s.grid s.hist
              ⟨DragOrigin.grid, item.char, some item.id, some src⟩
              over (supply s.ctr) (supply s.ctr)).grid,
            (handleDragEnd s.grid s.hist
              ⟨DragOrigin.grid, item.char, some item.id, some src⟩
              over (supply s.ctr) (supply s.ctr)).history, s.ctr + 1⟩ := by
        simp only [stepSession, hx]
      rw [hstep]
      have hitem : item.id ≠ "" := by
        obtain ⟨k, -, hk⟩ := hids src item hx
        rw [← hk]
        exact hne k
      match over with
      | none =>
        refine ⟨⟨hgood, idsFrom_mono supply _ _ _ hids (Nat.le_succ _)⟩, ?_⟩
        intro h hh
        obtain ⟨g1, g2⟩ := hhist h hh
        exact ⟨g1, idsFrom_mono supply _ _ _ g2 (Nat.le_succ _)⟩
      | some OverTarget.keyboardArea =>
        refine ⟨⟨goodState_del _ _ hgood,
          idsFrom_mono supply _ _ _ (idsFrom_del supply _ _ _ hids) (Nat.le_succ _)⟩, ?_⟩
        intro h hh
        have hh' : h ∈ s.hist ++ [s.grid] := hh
        rw [List.mem_append] at hh'
        rcases hh' with hh | hh
        · obtain ⟨g1, g2⟩ := hhist h hh
          exact ⟨g1, idsFrom_mono supply _ _ _ g2 (Nat.le_succ _)⟩
        · rw [List.mem_singleton] at hh
          subst hh
          exact ⟨hgood, idsFrom_mono supply _ _ _ hids (Nat.le_succ _)⟩
      | some (OverTarget.cell t) =>
        by_cases hst : src = t
        · subst hst
          rw [c7_same_cell_noop]
          refine ⟨⟨hgood, idsFrom_mono supply _ _ _ hids (Nat.le_succ _)⟩, ?_⟩
          intro h hh
          obtain ⟨g1, g2⟩ := hhist h hh
          exact ⟨g1, idsFrom_mono supply _ _ _ g2 (Nat.le_succ _)⟩
        · rw [move_grid_as_swap s.grid s.hist item src t _ _ hx hitem hst,
            handleDragEnd_move s.grid s.hist item.char (some item.id) src t _ _ hst]
          refine ⟨⟨goodState_comp s.grid (swapIdx src t) (swapIdx_injective src t) hgood,
            idsFrom_mono supply s.ctr (s.ctr + 1) (fun j => s.grid (swapIdx src t j))
              (idsFrom_comp supply s.ctr s.grid (swapIdx src t) hids) (Nat.le_succ _)⟩, ?_⟩
          intro h hh
          have hh' : h ∈ s.hist ++ [s.grid] := hh
          rw [List.mem_append] at hh'
          rcases hh' with hh | hh
          · obtain ⟨g1, g2⟩ := hhist h hh
            exact ⟨g1, idsFrom_mono supply _ _ _ g2 (Nat.le_succ _)⟩
          · rw [List.mem_singleton] at hh
            subst hh
            exact ⟨hgood, idsFrom_mono supply _ _ _ hids (Nat.le_succ _)⟩
  | dragKeyboard c over =>
    rw [stepSession]
    match over with
    | none =>
      refine ⟨⟨hgood, idsFrom_mono supply _ _ _ hids (Nat.le_succ _)⟩, ?_⟩
      intro h hh
      obtain ⟨g1, g2⟩ := hhist h hh
      exact ⟨g1, idsFrom_mono supply _ _ _ g2 (Nat.le_succ _)⟩
    | some OverTarget.keyboardArea =>
      refine ⟨⟨hgood, idsFrom_mono supply _ _ _ hids (Nat.le_succ _)⟩, ?_⟩
      intro h hh
      obtain ⟨g1, g2⟩ := hhist h hh
      exact ⟨g1, idsFrom_mono supply _ _ _ g2 (Nat.le_succ _)⟩
    | some (OverTarget.cell t) =>
      rw [handleDragEnd_clone]
      constructor
      · constructor
        · intro a b ta tb ha tb2 hab
          have ha' : setCell s.grid t { id := supply s.ctr, char := c } a = some ta := ha
          have tb' : setCell s.grid t { id := supply s.ctr, char := c } b = some tb := tb2
          clear ha tb2
          rename' ha' => ha, tb' => tb2
          rw [setCell] at ha tb2
          by_cases ha' : a = t
          · rw [if_pos ha'] at ha
            have hta : ta = ⟨supply s.ctr, c⟩ := (Option.some.inj ha).symm
            rw [if_neg (fun hb' => hab (ha'.trans hb'.symm))] at tb2
            obtain ⟨k, hk, hks⟩ := hids b tb tb2
            rw [hta, ← hks]
            intro hcontra
            exact absurd (hinj hcontra) (by omega)
          · rw [if_neg ha'] at ha
            by_cases hb' : b = t
            · rw [if_pos hb'] at tb2
              have htb : tb = ⟨supply s.ctr, c⟩ := (Option.some.inj tb2).symm
              obtain ⟨k, hk, hks⟩ := hids a ta ha
              rw [htb, ← hks]
              intro hcontra
              exact absurd (hinj hcontra) (by omega)
            · rw [if_neg hb'] at tb2
              exact hgood a b ta tb ha tb2 hab
        · intro a ta ha
          have ha' : setCell s.grid t { id := supply s.ctr, char := c } a = some ta := ha
          clear ha
          rename' ha' => ha
          rw [setCell] at ha
          by_cases ha' : a = t
          · rw [if_pos ha'] at ha
            refine ⟨s.ctr, Nat.lt_succ_self _, ?_⟩
            rw [← Option.some.inj ha]
          · rw [if_neg ha'] at ha
            obtain ⟨k, hk, hks⟩ := hids a ta ha
            exact ⟨k, Nat.lt_succ_of_lt hk, hks⟩
      · intro h hh
        have hh' : h ∈ s.hist ++ [s.grid] := hh
        rw [List.mem_append] at hh'
        rcases hh' with hh | hh
        · obtain ⟨g1, g2⟩ := hhist h hh
          exact ⟨g1, idsFrom_mono supply _ _ _ g2 (Nat.le_succ _)⟩
        · rw [List.mem_singleton] at hh
          subst hh
          exact ⟨hgood, idsFrom_mono supply _ _ _ hids (Nat.le_succ _)⟩
  | clearEv =>
    rw [stepSession]
    by_cases hz : gridKeyCount s.grid = 0
    · rw [show handleClear s.grid = ⟨s.grid, none, none⟩ from by rw [handleClear, if_pos hz]]
      exact ⟨⟨hgood, hids⟩, hhist⟩
    · rw [show handleClear s.grid = ⟨emptyGrid, some s.grid, some SoundKind.rustle⟩ from by
        rw [handleClear, if_neg hz]]
      refine ⟨⟨goodState_empty, idsFrom_empty supply _⟩, ?_⟩
      intro h hh
      have hh' : h ∈ s.hist ++ [s.grid] := hh
      rw [List.mem_append] at hh'
      rcases hh' with hh | hh
      · exact hhist h hh
      · rw [List.mem_singleton] at hh
        subst hh
        exact ⟨hgood, hids⟩
  | undoEv =>
    rw [stepSession]
    cases hx : s.hist.getLast? with
    | none =>
      rw [show handleUndo s.grid s.hist = ⟨s.grid, s.hist, none⟩ from by
        rw [handleUndo, hx]]
      exact ⟨⟨hgood, hids⟩, hhist⟩
    | some prev =>
      rw [show handleUndo s.grid s.hist =
          ⟨prev, s.hist.dropLast, some SoundKind.rustle⟩ from by rw [handleUndo, hx]]
      refine ⟨hhist prev (List.mem_of_mem_getLast? hx), ?_⟩
      intro h hh
      exact hhist h (List.dropLast_subset s.hist hh)

theorem sessInv_init (supply : Nat → String) : SessInv supply initSession := by
  refine ⟨⟨goodState_empty, idsFrom_empty supply 0⟩, ?_⟩
  intro h hh
  exact absurd hh (List.not_mem_nil h)

theorem sessInv_run (supply : Nat → String) (hinj : Function.Injective supply)
    (hne : ∀ n, supply n ≠ "") :
    ∀ tr s, SessInv supply s → SessInv supply (runFrom supply s tr) := by
  intro tr
  induction tr with
  | nil => intro s hi; exact hi
  | cons e es ih =>
    intro s hi
    exact ih (stepSession supply s e) (sessInv_step supply hinj hne s hi e)

/-- Along a trace, every grid state passed through has all its ids drawn
from the supply below the final counter. -/
theorem idsAlong (supply : Nat → String) (hinj : Function.Injective supply)
    (hne : ∀ n, supply n ≠ "") :
    ∀ tr s, SessInv supply s →
      ∀ g, g ∈ gridsAlong supply s tr →
        IdsFrom supply (runFrom supply s tr).ctr g := by
  intro tr
  induction tr with
  | nil =>
    intro s hi g hg
    rw [gridsAlong, List.mem_singleton] at hg
    subst hg
    exact hi.1.2
  | cons e es ih =>
    intro s hi g hg
    rw [gridsAlong, List.mem_cons] at hg
    rcases hg with hg | hg
    · subst hg
      refine idsFrom_mono supply _ _ _ hi.1.2 ?_
      exact Nat.le_trans (stepSession_ctr_le supply s e)
        (runFrom_ctr_le supply es (stepSession supply s e))
    · exact ih (stepSession supply s e) (sessInv_step supply hinj hne s hi e) g hg

/-- C9: with an injective, nonempty id supply, every reachable grid has
pairwise-distinct instance ids; a keyboard clone writes a tile carrying
the supply's next id, and that id differs from every instance id that has
appeared in any grid state of the session so far — even when the same
character is cloned twice in a row. -/
theorem c9_instance_ids (supply : Nat → String) (hinj : Function.Injective supply)
    (hne : ∀ n, supply n ≠ "") (tr : List UserEvent) (c : String) (t : Nat) :
    GoodState (runTrace supply tr).grid ∧
    (stepSession supply (runTrace supply tr)
        (UserEvent.dragKeyboard c (some (OverTarget.cell t)))).grid t =
      some ⟨supply (runTrace supply tr).ctr, c⟩ ∧
    (∀ g, g ∈ gridsEver supply tr → ∀ i it, g i = some it →
      it.id ≠ supply (runTrace supply tr).ctr) := by
  have hinv := sessInv_run supply hinj hne tr initSession (sessInv_init supply)
  refine ⟨hinv.1.1, ?_, ?_⟩
  · rw [stepSession, handleDragEnd_clone]
    exact setCell_self _ _ _
  · intro g hg i it hit
    obtain ⟨k, hk, hks⟩ :=
      idsAlong supply hinj hne tr initSession (sessInv_init supply) g hg i it hit
    rw [← hks]
    intro hcontra
    have hk2 : k < (runTrace supply tr).ctr := hk
    have hk3 : k = (runTrace supply tr).ctr := hinj hcontra
    omega

/-- Witness for C9: after one clone of "К" into cell 0, the invariants
hold for the concrete supply and the next clone's id is fresh. -/
theorem c9_instance_ids_witness :
    GoodState (runTrace supplyA [UserEvent.dragKeyboard "К" (some (OverTarget.cell 0))]).grid ∧
    (stepSession supplyA
        (runTrace supplyA [UserEvent.dragKeyboard "К" (some (OverTarget.cell 0))])
        (UserEvent.dragKeyboard "К" (some (OverTarget.cell 1)))).grid 1 =
      some ⟨supplyA
        (runTrace supplyA [UserEvent.dragKeyboard "К" (some (OverTarget.cell 0))]).ctr, "К"⟩ ∧
    (∀ g, g ∈ gridsEver supplyA [UserEvent.dragKeyboard "К" (some (OverTarget.cell 0))] →
      ∀ i it, g i = some it →
        it.id ≠ supplyA
          (runTrace supplyA [UserEvent.dragKeyboard "К" (some (OverTarget.cell 0))]).ctr) := by
  have hinj : Function.Injective supplyA := by
    intro a b h
    have hdata : (supplyA a).data = (supplyA b).data := congrArg String.data h
    simp only [supplyA] at hdata
    have hlen := congrArg List.length hdata
    rw [List.length_replicate, List.length_replicate] at hlen
    omega
  have hne : ∀ n, supplyA n ≠ "" := by
    intro n h
    have hdata : (supplyA n).data = "".data := congrArg String.data h
    simp only [supplyA] at hdata
    rw [List.replicate_succ] at hdata
    exact List.noConfusion hdata
  exact c9_instance_ids supplyA hinj hne
    [UserEvent.dragKeyboard "К" (some (OverTarget.cell 0))] "К" 1

theorem cellsOk_tail (o : Option GridItem) (rest : List (Option GridItem))
    (hc : CellsOk (o :: rest)) : CellsOk rest :=
  fun o2 ho it hit => hc o2 (List.mem_cons_of_mem o ho) it hit

theorem space_isWhitespace : (' ' : Char).isWhitespace = true := by decide

/-- Completing the `getAllText` row fold from a nonempty accumulator:
the fold appends the continuation determined by whether the accumulator
ends in a space. -/
theorem foldl_rowStep_eq_contFrom :
    ∀ (cells : List (Option GridItem)) (acc : List Char) (b : Bool),
      CellsOk cells → acc ≠ [] → (b = true ↔ acc.getLast? = some (' ')) →
      List.foldl rowStep acc cells = acc ++ contFrom b cells := by
  intro cells
  induction cells with
  | nil =>
    intro acc b _ _ _
    rw [List.foldl_nil, contFrom, List.append_nil]
  | cons o rest ih =>
    intro acc b hc hacc hb
    cases o with
    | some item =>
      obtain ⟨ch, hdata, hws⟩ := hc (some item) (List.mem_cons_self _ _) item rfl
      have hchne : ch ≠ ' ' := by
        intro h
        rw [h, space_isWhitespace] at hws
        exact Bool.noConfusion hws
      rw [List.foldl_cons]
      rw [show rowStep acc (some item) = acc ++ item.char.data from rfl]
      have hne2 : acc ++ item.char.data ≠ [] := by
        rw [hdata]
        intro h
        have := congrArg List.length h
        rw [List.length_append] at this
        simp at this
      have hb2 : (false = true ↔ (acc ++ item.char.data).getLast? = some (' ')) := by
        constructor
        · intro h
          exact Bool.noConfusion h
        · intro h
          rw [hdata, List.getLast?_concat] at h
          exact absurd (Option.some.inj h) hchne
      rw [ih (acc ++ item.char.data) false (cellsOk_tail _ _ hc) hne2 hb2]
      rw [show contFrom b (some item :: rest) = item.char.data ++ contFrom false rest from rfl]
      rw [List.append_assoc]
    | none =>
      rw [List.foldl_cons]
      cases b with
      | true =>
        have hlast : acc.getLast? = some (' ') := hb.mp rfl
        have hstep : rowStep acc none = acc := by
          rw [rowStep, if_neg]
          intro h
          exact h.2 hlast
        rw [hstep]
        rw [show contFrom true (none :: rest) = contFrom true rest from rfl]
        exact ih acc true (cellsOk_tail _ _ hc) hacc ⟨fun _ => hlast, fun _ => rfl⟩
      | false =>
        have hlast : acc.getLast? ≠ some (' ') := fun h => Bool.noConfusion (hb.mpr h)
        have hstep : rowStep acc none = acc ++ [' '] := by
          rw [rowStep, if_pos ⟨hacc, hlast⟩]
        rw [hstep]
        have hne2 : acc ++ [' '] ≠ [] := by
          intro h
          have := congrArg List.length h
          rw [List.length_append] at this
          simp at this
        rw [ih (acc ++ [' ']) true (cellsOk_tail _ _ hc) hne2
          ⟨fun _ => List.getLast?_concat _, fun _ => rfl⟩]
        rw [show contFrom false (none :: rest) = ' ' :: contFrom true rest from rfl]
        rw [List.append_assoc]
        rfl

/-- The `getAllText` row fold from the empty accumulator computes the
continuation `cont0`. -/
theorem foldl_rowStep_nil :
    ∀ cells : List (Option GridItem), CellsOk cells →
      List.foldl rowStep [] cells = cont0 cells := by
  intro cells
  induction cells with
  | nil => intro _; rfl
  | cons o rest ih =>
    intro hc
    cases o with
    | some item =>
      obtain ⟨ch, hdata, hws⟩ := hc (some item) (List.mem_cons_self _ _) item rfl
      have hchne : ch ≠ ' ' := by
        intro h
        rw [h, space_isWhitespace] at hws
        exact Bool.noConfusion hws
      rw [List.foldl_cons]
      rw [show rowStep [] (some item) = item.char.data from rfl]
      have hne : item.char.data ≠ [] := by
        rw [hdata]
        exact fun h => List.noConfusion h
      have hb : (false = true ↔ (item.char.data).getLast? = some (' ')) := by
        constructor
        · intro h
          exact Bool.noConfusion h
        · intro h
          rw [hdata] at h
          rw [show ([ch] : List Char).getLast? = some ch from rfl] at h
          exact absurd (Option.some.inj h) hchne
      rw [foldl_rowStep_eq_contFrom rest item.char.data false (cellsOk_tail _ _ hc) hne hb]
      rw [show cont0 (some item :: rest) = item.char.data ++ contFrom false rest from rfl]
    | none =>
      rw [List.foldl_cons]
      rw [show rowStep [] none = [] from by rw [rowStep, if_neg]; intro h; exact h.1 rfl]
      rw [show cont0 (none :: rest) = cont0 rest from rfl]
      exact ih (cellsOk_tail _ _ hc)

theorem mem_of_head?_eq (l : List Char) (c : Char) (h : l.head? = some c) : c ∈ l := by
  cases l with
  | nil => exact Option.noConfusion h
  | cons a t =>
    rw [show (a :: t).head? = some a from rfl] at h
    rw [← Option.some.inj h]
    exact List.mem_cons_self a t

theorem dropWhile_eq_self_of_head (l : List Char)
    (h : ∀ c, l.head? = some c → c.isWhitespace = false) :
    l.dropWhile Char.isWhitespace = l := by
  cases l with
  | nil => rfl
  | cons a t =>
    rw [List.dropWhile_cons, if_neg]
    intro hws
    rw [h a rfl] at hws
    exact Bool.noConfusion hws

theorem dropWhile_eq_self_of_forall (l : List Char)
    (h : ∀ c ∈ l, c.isWhitespace = false) :
    l.dropWhile Char.isWhitespace = l :=
  dropWhile_eq_self_of_head l
    (fun c hc => h c (mem_of_head?_eq l c hc))

theorem dropWhile_ne_nil_of_mem :
    ∀ (l : List Char) (c : Char), c ∈ l → c.isWhitespace = false →
      l.dropWhile Char.isWhitespace ≠ [] := by
  intro l
  induction l with
  | nil => intro c hc _; exact absurd hc (List.not_mem_nil c)
  | cons a t ih =>
    intro c hc hcw
    rw [List.dropWhile_cons]
    by_cases ha : a.isWhitespace = true
    · rw [if_pos ha]
      have hct : c ∈ t := by
        rcases List.mem_cons.mp hc with h | h
        · rw [h] at hcw
          rw [ha] at hcw
          exact Bool.noConfusion hcw
        · exact h
      exact ih c hct hcw
    · rw [if_neg ha]
      exact fun h => List.noConfusion h

theorem jsTrim_word (d : List Char) (h : WordChars d) : jsTrim d = d := by
  rw [jsTrim, dropWhile_eq_self_of_forall d h,
    dropWhile_eq_self_of_forall _ (fun c hc => h c (List.mem_reverse.mp hc)),
    List.reverse_reverse]

theorem jsTrim_word_space (d : List Char) (hne : d ≠ []) (h : WordChars d) :
    jsTrim (d ++ [' ']) = d := by
  rw [jsTrim]
  have hlead : (d ++ [' ']).dropWhile Char.isWhitespace = d ++ [' '] := by
    apply dropWhile_eq_self_of_head
    intro c hc
    cases d with
    | nil => exact absurd rfl hne
    | cons a t =>
      rw [List.cons_append, show ((a :: (t ++ [' '])).head? : Option Char) = some a from rfl] at hc
      rw [← Option.some.inj hc]
      exact h a (List.mem_cons_self a t)
  rw [hlead, List.reverse_append,
    show ([' '] : List Char).reverse = [' '] from rfl,
    show (([' '] : List Char) ++ d.reverse) = ' ' :: d.reverse from rfl,
    List.dropWhile_cons, if_pos space_isWhitespace,
    dropWhile_eq_self_of_forall _ (fun c hc => h c (List.mem_reverse.mp hc)),
    List.reverse_reverse]

theorem jsTrim_peel (d x : List Char) (hdne : d ≠ []) (hd : WordChars d)
    (hx : ∃ c, x.head? = some c ∧ c.isWhitespace = false) :
    jsTrim (d ++ ' ' :: x) = d ++ ' ' :: jsTrim x := by
  obtain ⟨c0, hc0, hc0w⟩ := hx
  have hleadL : (d ++ ' ' :: x).dropWhile Char.isWhitespace = d ++ ' ' :: x := by
    apply dropWhile_eq_self_of_head
    intro c hc
    cases d with
    | nil => exact absurd rfl hdne
    | cons a t =>
      rw [List.cons_append, show ((a :: (t ++ ' ' :: x)).head? : Option Char) = some a from rfl] at hc
      rw [← Option.some.inj hc]
      exact hd a (List.mem_cons_self a t)
  have hleadR : x.dropWhile Char.isWhitespace = x := by
    apply dropWhile_eq_self_of_head
    intro c hc
    rw [hc0] at hc
    rw [← Option.some.inj hc]
    exact hc0w
  rw [jsTrim, jsTrim, hleadL, hleadR]
  have hrev : (d ++ ' ' :: x).reverse = (x.reverse ++ [' ']) ++ d.reverse := by
    rw [List.reverse_append, List.reverse_cons]
  rw [hrev]
  have hxdrop : x.reverse.dropWhile Char.isWhitespace ≠ [] :=
    dropWhile_ne_nil_of_mem x.reverse c0
      (List.mem_reverse.mpr (mem_of_head?_eq x c0 hc0)) hc0w
  have h1 : (x.reverse ++ [' ']).dropWhile Char.isWhitespace =
      x.reverse.dropWhile Char.isWhitespace ++ [' '] := by
    rw [List.dropWhile_append, if_neg]
    intro hcontra
    rw [List.isEmpty_iff] at hcontra
    exact hxdrop hcontra
  have h2 : ((x.reverse ++ [' ']) ++ d.reverse).dropWhile Char.isWhitespace =
      (x.reverse.dropWhile Char.isWhitespace ++ [' ']) ++ d.reverse := by
    rw [List.dropWhile_append, if_neg, h1]
    intro hcontra
    rw [List.isEmpty_iff, h1] at hcontra
    obtain ⟨-, h⟩ := List.append_eq_nil.mp hcontra
    exact List.noConfusion h
  rw [h2, List.reverse_append, List.reverse_append, List.reverse_reverse,
    show ([' '] : List Char).reverse = [' '] from rfl,
    show (([' '] : List Char) ++ (x.reverse.dropWhile Char.isWhitespace).reverse) =
      ' ' :: (x.reverse.dropWhile Char.isWhitespace).reverse from rfl]

theorem runsAux_ne_nil :
    ∀ (rest : List (Option GridItem)) (cur : List Char), cur ≠ [] →
      runsAux cur rest ≠ [] := by
  intro rest
  induction rest with
  | nil =>
    intro cur hc
    rw [runsAux, if_neg hc]
    exact fun h => List.noConfusion h
  | cons o r ih =>
    intro cur hc
    cases o with
    | some item =>
      rw [show runsAux cur (some item :: r) = runsAux (cur ++ item.char.data) r from rfl]
      exact ih (cur ++ item.char.data) (fun h => hc (List.append_eq_nil.mp h).1)
    | none =>
      rw [show runsAux cur (none :: r) = cur :: runsAux [] r from by rw [runsAux, if_neg hc]]
      exact fun h => List.noConfusion h

theorem runsAux_mem :
    ∀ (rest : List (Option GridItem)) (cur : List Char), WordChars cur → CellsOk rest →
      ∀ l ∈ runsAux cur rest, l ≠ [] ∧ WordChars l := by
  intro rest
  induction rest with
  | nil =>
    intro cur hcur _ l hl
    rw [runsAux] at hl
    by_cases hcn : cur = []
    · rw [if_pos hcn] at hl
      exact absurd hl (List.not_mem_nil l)
    · rw [if_neg hcn] at hl
      rw [List.mem_singleton] at hl
      rw [hl]
      exact ⟨hcn, hcur⟩
  | cons o r ih =>
    intro cur hcur hc l hl
    cases o with
    | some item =>
      obtain ⟨ch, hdata, hws⟩ := hc (some item) (List.mem_cons_self _ _) item rfl
      rw [show runsAux cur (some item :: r) = runsAux (cur ++ item.char.data) r from rfl] at hl
      refine ih (cur ++ item.char.data) ?_ (cellsOk_tail _ _ hc) l hl
      intro c hcm
      rcases List.mem_append.mp hcm with h | h
      · exact hcur c h
      · rw [hdata, List.mem_singleton] at h
        rw [h]
        exact hws
    | none =>
      by_cases hcn : cur = []
      · rw [show runsAux cur (none :: r) = runsAux [] r from by rw [runsAux, if_pos hcn]] at hl
        exact ih [] (fun c hc2 => absurd hc2 (List.not_mem_nil c)) (cellsOk_tail _ _ hc) l hl
      · rw [show runsAux cur (none :: r) = cur :: runsAux [] r from by
          rw [runsAux, if_neg hcn]] at hl
        rcases List.mem_cons.mp hl with h | h
        · rw [h]
          exact ⟨hcn, hcur⟩
        · exact ih [] (fun c hc2 => absurd hc2 (List.not_mem_nil c)) (cellsOk_tail _ _ hc) l h

/-- The main row-text correspondence: completing the fold text from a
pending word (`contFrom false`) or from a word followed by a collapsed
space (`contFrom true`) and trimming produces the space-joined occupied
runs. -/
theorem trim_contFrom :
    ∀ n (rest : List (Option GridItem)), rest.length ≤ n → CellsOk rest →
      (∀ d : List Char, d ≠ [] → WordChars d →
        jsTrim (d ++ contFrom false rest) = joinRuns (runsAux d rest)) ∧
      (∀ d : List Char, d ≠ [] → WordChars d →
        jsTrim (d ++ ' ' :: contFrom true rest) = joinRuns (d :: runsAux [] rest)) := by
  intro n
  induction n with
  | zero =>
    intro rest hlen _
    have hnil : rest = [] := List.length_eq_zero.mp (Nat.le_zero.mp hlen)
    subst hnil
    constructor
    · intro d hdne hd
      rw [show contFrom false ([] : List (Option GridItem)) = [] from rfl, List.append_nil,
        jsTrim_word d hd,
        show runsAux d ([] : List (Option GridItem)) = [d] from by rw [runsAux, if_neg hdne]]
      rfl
    · intro d hdne hd
      rw [show contFrom true ([] : List (Option GridItem)) = [] from rfl,
        show (d ++ [' '] : List Char) = d ++ ' ' :: [] from rfl] at *
      rw [show (d ++ ' ' :: ([] : List Char)) = d ++ [' '] from rfl,
        jsTrim_word_space d hdne hd,
        show runsAux ([] : List Char) ([] : List (Option GridItem)) = [] from rfl]
      rfl
  | succ n ih =>
    intro rest hlen hc
    cases rest with
    | nil => exact ih [] (Nat.zero_le n) hc
    | cons o r =>
      have hlenr : r.length ≤ n := by
        rw [List.length_cons] at hlen
        omega
      obtain ⟨ihM, ihN⟩ := ih r hlenr (cellsOk_tail _ _ hc)
      constructor
      · intro d hdne hd
        cases o with
        | some item =>
          obtain ⟨ch, hdata, hws⟩ := hc (some item) (List.mem_cons_self _ _) item rfl
          have hdw : WordChars (d ++ item.char.data) := by
            intro c hcm
            rcases List.mem_append.mp hcm with h | h
            · exact hd c h
            · rw [hdata, List.mem_singleton] at h
              rw [h]
              exact hws
          have hdn : d ++ item.char.data ≠ [] :=
            fun h => hdne (List.append_eq_nil.mp h).1
          rw [show contFrom false (some item :: r) = item.char.data ++ contFrom false r from rfl,
            ← List.append_assoc, ihM (d ++ item.char.data) hdn hdw,
            show runsAux d (some item :: r) = runsAux (d ++ item.char.data) r from rfl]
        | none =>
          rw [show contFrom false (none :: r) = ' ' :: contFrom true r from rfl,
            ihN d hdne hd,
            show runsAux d (none :: r) = d :: runsAux [] r from by rw [runsAux, if_neg hdne]]
      · intro d hdne hd
        cases o with
        | none =>
          rw [show contFrom true (none :: r) = contFrom true r from rfl,
            ihN d hdne hd,
            show runsAux ([] : List Char) (none :: r) = runsAux [] r from by
              rw [runsAux, if_pos rfl]]
        | some item =>
          obtain ⟨ch, hdata, hws⟩ := hc (some item) (List.mem_cons_self _ _) item rfl
          have hdatane : item.char.data ≠ [] := by
            rw [hdata]
            exact fun h => List.noConfusion h
          have hdataw : WordChars item.char.data := by
            intro c hcm
            rw [hdata, List.mem_singleton] at hcm
            rw [hcm]
            exact hws
          rw [show contFrom true (some item :: r) = item.char.data ++ contFrom false r from rfl]
          rw [jsTrim_peel d (item.char.data ++ contFrom false r) hdne hd
            ⟨ch, by rw [hdata]; rfl, hws⟩]
          rw [ihM item.char.data hdatane hdataw]
          rw [show runsAux ([] : List Char) (some item :: r) = runsAux item.char.data r from rfl]
          obtain ⟨r2, rs, hrs⟩ :=
            List.exists_cons_of_ne_nil (runsAux_ne_nil r item.char.data hdatane)
          rw [hrs]
          rfl

theorem trim_cont0 :
    ∀ cells : List (Option GridItem), CellsOk cells →
      jsTrim (cont0 cells) = joinRuns (runsAux [] cells) := by
  intro cells
  induction cells with
  | nil => intro _; rfl
  | cons o rest ih =>
    intro hc
    cases o with
    | none =>
      rw [show cont0 (none :: rest) = cont0 rest from rfl,
        show runsAux ([] : List Char) (none :: rest) = runsAux [] rest from by
          rw [runsAux, if_pos rfl]]
      exact ih (cellsOk_tail _ _ hc)
    | some item =>
      obtain ⟨ch, hdata, hws⟩ := hc (some item) (List.mem_cons_self _ _) item rfl
      have hdatane : item.char.data ≠ [] := by
        rw [hdata]
        exact fun h => List.noConfusion h
      have hdataw : WordChars item.char.data := by
        intro c hcm
        rw [hdata, List.mem_singleton] at hcm
        rw [hcm]
        exact hws
      obtain ⟨M, -⟩ := trim_contFrom rest.length rest (Nat.le_refl _) (cellsOk_tail _ _ hc)
      rw [show cont0 (some item :: rest) = item.char.data ++ contFrom false rest from rfl,
        M item.char.data hdatane hdataw,
        show runsAux ([] : List Char) (some item :: rest) = runsAux item.char.data rest from rfl]

theorem cellsOk_of_state (state : GridState) (hchars : SingleNonSpace state) (r : Nat) :
    CellsOk (rowCellsOf state r) := by
  intro o ho it hit
  rw [rowCellsOf] at ho
  obtain ⟨cix, -, hcix⟩ := List.mem_map.mp ho
  rw [hit] at hcix
  exact hchars _ it hcix

theorem cleanRow_eq_spec (state : GridState) (hchars : SingleNonSpace state) (r : Nat) :
    cleanRow state r = specRowText (rowCellsOf state r) := by
  have hc := cellsOk_of_state state hchars r
  rw [cleanRow, rowFold, foldl_rowStep_nil _ hc, specRowText, runsOfRow]
  exact trim_cont0 _ hc

theorem wordChars_chain (l : List Char) (h : WordChars l) :
    List.Chain' (fun a b => ¬(a = ' ' ∧ b = ' ')) l := by
  induction l with
  | nil => exact List.chain'_nil
  | cons a t ih =>
    rw [List.chain'_cons']
    constructor
    · intro y _ hy
      have := h a (List.mem_cons_self a t)
      rw [hy.1, space_isWhitespace] at this
      exact Bool.noConfusion this
    · exact ih (fun c hc => h c (List.mem_cons_of_mem a hc))

theorem joinRuns_ne_nil (r2 : List Char) (rs3 : List (List Char)) (h : r2 ≠ []) :
    joinRuns (r2 :: rs3) ≠ [] := by
  cases rs3 with
  | nil => exact h
  | cons r3 rs4 =>
    rw [show joinRuns (r2 :: r3 :: rs4) = r2 ++ ' ' :: joinRuns (r3 :: rs4) from rfl]
    intro hcontra
    exact List.noConfusion (List.append_eq_nil.mp hcontra).2

theorem joinRuns_noBad :
    ∀ rs : List (List Char), (∀ l ∈ rs, l ≠ [] ∧ WordChars l) →
      NoBadSpaces (joinRuns rs) := by
  intro rs
  induction rs with
  | nil =>
    intro _
    exact ⟨fun h => Option.noConfusion h, fun h => Option.noConfusion h, List.chain'_nil⟩
  | cons r rs2 ih =>
    intro h
    obtain ⟨hrne, hrw⟩ := h r (List.mem_cons_self _ _)
    cases rs2 with
    | nil =>
      rw [show joinRuns [r] = r from rfl]
      refine ⟨?_, ?_, wordChars_chain r hrw⟩
      · intro hcontra
        have hmem := mem_of_head?_eq r ' ' hcontra
        have := hrw ' ' hmem
        rw [space_isWhitespace] at this
        exact Bool.noConfusion this
      · intro hcontra
        have hmem := List.mem_of_mem_getLast? hcontra
        have := hrw ' ' hmem
        rw [space_isWhitespace] at this
        exact Bool.noConfusion this
    | cons r2 rs3 =>
      obtain ⟨ihHead, ihLast, ihChain⟩ := ih (fun l hl => h l (List.mem_cons_of_mem r hl))
      have hJne : joinRuns (r2 :: rs3) ≠ [] :=
        joinRuns_ne_nil r2 rs3 (h r2 (List.mem_cons_of_mem r (List.mem_cons_self _ _))).1
      rw [show joinRuns (r :: r2 :: rs3) = r ++ ' ' :: joinRuns (r2 :: rs3) from rfl]
      refine ⟨?_, ?_, ?_⟩
      · intro hcontra
        cases hr : r with
        | nil => exact hrne hr
        | cons a t =>
          rw [hr, List.cons_append,
            show ((a :: (t ++ ' ' :: joinRuns (r2 :: rs3))).head? : Option Char) = some a
              from rfl] at hcontra
          have ha : a = ' ' := Option.some.inj hcontra
          have := hrw a (by rw [hr]; exact List.mem_cons_self a t)
          rw [ha, space_isWhitespace] at this
          exact Bool.noConfusion this
      · rw [List.getLast?_append_cons]
        obtain ⟨j0, jt, hj⟩ := List.exists_cons_of_ne_nil hJne
        rw [hj, List.getLast?_cons_cons, ← hj]
        exact ihLast
      · rw [List.chain'_append]
        refine ⟨wordChars_chain r hrw, ?_, ?_⟩
        · rw [List.chain'_cons']
          refine ⟨?_, ihChain⟩
          intro y hy hcontra
          have hyh : (joinRuns (r2 :: rs3)).head? = some y := Option.mem_def.mp hy
          rw [hcontra.2] at hyh
          exact ihHead hyh
        · intro x hx y hy hcontra
          have hxl : r.getLast? = some x := Option.mem_def.mp hx
          have := hrw x (List.mem_of_mem_getLast? hxl)
          rw [hcontra.1, space_isWhitespace] at this
          exact Bool.noConfusion this

/-- C5 counterexample: a grid holding tiles whose character is a space
(allowed by the data model, where `char` is an arbitrary string) makes
`getAllText` produce a row string with a double space. -/
theorem c5_counterexample_space_tile :
    getAllText stSpaced = "А  Б" ∧ ¬ NoBadSpaces (cleanRow stSpaced 0) := by
  constructor
  · decide
  · intro h
    obtain ⟨-, -, hchain⟩ := h
    have hclean : cleanRow stSpaced 0 = ['А', ' ', ' ', 'Б'] := by decide
    rw [hclean] at hchain
    exact (List.chain'_cons.mp (List.chain'_cons.mp hchain).2).1 ⟨rfl, rfl⟩

/-- C5 (amended): for grids whose tile characters are single
non-whitespace characters (as all keyboard letters are), `getAllText` on
the empty grid is "", `getAllText` equals the spec's description (per-row
occupied runs joined by single spaces, empty rows skipped, rows joined by
". "), and no produced row string has a leading, trailing, or double
space. -/
theorem c5_all_text (state : GridState) (hchars : SingleNonSpace state) :
    getAllText emptyGrid = "" ∧
    getAllText state = allTextSpec state ∧
    ∀ r, NoBadSpaces (cleanRow state r) := by
  refine ⟨by decide, ?_, ?_⟩
  · rw [getAllText, allTextSpec,
      List.map_congr_left (fun r _ => cleanRow_eq_spec state hchars r)]
  · intro r
    rw [cleanRow_eq_spec state hchars r, specRowText, runsOfRow]
    exact joinRuns_noBad _
      (runsAux_mem (rowCellsOf state r) [] (fun c hc => absurd hc (List.not_mem_nil c))
        (cellsOk_of_state state hchars r))

/-- Witness for C5 (amended) on the one-letter grid. -/
theorem c5_all_text_witness :
    getAllText stK = allTextSpec stK ∧ getAllText emptyGrid = "" := by
  have hchars : SingleNonSpace stK := by
    intro i it h
    obtain ⟨-, hit⟩ := stK_cases i it h
    rw [hit]
    exact ⟨'К', rfl, by decide⟩
  exact ⟨(c5_all_text stK hchars).2.1, (c5_all_text stK hchars).1⟩

end LevLetters
